import Mathlib

/-!
Verification of the learning-rust repository snippets.

Strings are modelled as lists of characters (`Str`).  Rust functions are
shallowly embedded as Lean functions: panics become `Option`/`Except`
failures, the environment read of `Config::new` is passed in explicitly,
and the guessing game's stdin loop consumes an explicit list of input
lines.  Unicode-aware pieces of the Rust standard library are modelled
on a fragment: `str::trim` on the common whitespace characters, and
`str::to_lowercase` on basic latin plus the Greek sigmas, including the
context-sensitive Final_Sigma rule of the real implementation.
-/

/-- Strings, modelled as lists of characters. -/
abbrev Str := List Char

namespace Minigrep

/-- Embedding of Rust `str::split_inclusive('\n')` as used by `str::lines`:
the input is cut into chunks, each chunk keeping its terminating newline;
the empty input yields no chunks. -/
def splitInclusiveNl : Str → List Str
  | [] => []
  | c :: rest =>
    if c = '\n' then [c] :: splitInclusiveNl rest
    else
      match splitInclusiveNl rest with
      | [] => [[c]]
      | l :: ls => (c :: l) :: ls

/-- Embedding of Rust `str::strip_suffix` for a one-character pattern:
`some` of the shortened string when the last character is `c`, else `none`. -/
def stripSuffixChar (l : Str) (c : Char) : Option Str :=
  if l.getLast? = some c then some l.dropLast else none

/-- Embedding of the per-chunk map of Rust `str::lines`: strip one trailing
newline, and only when a newline was stripped also strip one trailing
carriage return. -/
def linesMap (line : Str) : Str :=
  match stripSuffixChar line '\n' with
  | none => line
  | some l =>
    match stripSuffixChar l '\r' with
    | none => l
    | some l2 => l2

/-- Embedding of Rust `str::lines`: split inclusively at newlines, then
strip the line terminators. -/
def lines (s : Str) : List Str :=
  (splitInclusiveNl s).map linesMap

/-- Embedding of Rust `str::contains` with a string pattern: `needle`
occurs contiguously inside `haystack`. -/
def strContains (haystack needle : Str) : Bool :=
  decide (needle <:+: haystack)

/-- Embedding of `minigrep::search` (src/minigrep/src/lib.rs):
`contents.lines().filter(|line| line.contains(query)).collect()`. -/
def search (query contents : Str) : List Str :=
  (lines contents).filter (fun line => strContains line query)

/-- Per-character unconditional lowercasing, modelling the Rust
lowercase table on the basic-latin fragment by the core character
operation.  The one context-sensitive mapping of `str::to_lowercase`,
the Greek capital sigma, is handled separately in `toLowercaseAux`. -/
def charToLower (c : Char) : Char := Char.toLower c

/-- The Unicode `Cased` property on the modelled fragment (ASCII plus the
three Greek sigma characters): the ASCII letters, the capital sigma and
the two lowercase sigmas are cased. -/
def isCasedChar (c : Char) : Bool :=
  c.isAlpha || c = 'Σ' || c = 'σ' || c = 'ς'

/-- The Unicode `Case_Ignorable` property on the modelled fragment: of
the ASCII characters exactly apostrophe (39), full stop (46), colon
(58), circumflex (94) and grave accent (96) are case-ignorable. -/
def isCaseIgnorable (c : Char) : Bool :=
  c.toNat = 39 || c.toNat = 46 || c.toNat = 58 || c.toNat = 94 || c.toNat = 96

/-- Embedding of the `case_ignorable_then_cased` helper of Rust
`str::to_lowercase`: after skipping case-ignorable characters, is the
next character cased? -/
def caseIgnorableThenCased (l : Str) : Bool :=
  match l.dropWhile isCaseIgnorable with
  | [] => false
  | c :: _ => isCasedChar c

/-- Worker of `toLowercase`: `before` is the reversed list of the
characters already consumed, playing the role of Rust's
`from[..i].chars().rev()`.  A capital sigma is mapped by the
`map_uppercase_sigma` rule of Rust `str::to_lowercase` — `'ς'` when in
word-final position (a cased character before it and none after it, up
to case-ignorable characters), `'σ'` otherwise; every other character is
mapped unconditionally. -/
def toLowercaseAux : Str → Str → Str
  | _, [] => []
  | before, c :: rest =>
    (if c = 'Σ' then
      (if caseIgnorableThenCased before && !caseIgnorableThenCased rest
       then ['ς'] else ['σ'])
     else [charToLower c]) ++ toLowercaseAux (c :: before) rest

/-- Embedding of Rust `str::to_lowercase` on the modelled fragment,
including its one context-sensitive mapping, the Final_Sigma rule. -/
def toLowercase (s : Str) : Str := toLowercaseAux [] s

/-- Embedding of `minigrep::search_case_insensitive`
(src/minigrep/src/lib.rs): the query is lowercased once, then the for
loop pushes exactly the lines whose lowercased form contains it, i.e. a
filter of the lines. -/
def search_case_insensitive (query contents : Str) : List Str :=
  let q := toLowercase query
  (lines contents).filter (fun line => strContains (toLowercase line) q)

/-- Embedding of `minigrep::Config` (src/minigrep/src/lib.rs): the record
has exactly the three fields `query`, `filename`, `ignore_case`. -/
structure Config where
  query : Str
  filename : Str
  ignore_case : Bool
  deriving DecidableEq

/-- Embedding of `Config::new` (src/minigrep/src/lib.rs).  The read of the
environment variable `IGNORE_CASE` is passed in explicitly as its optional
value, so Rust's `env::var("IGNORE_CASE").is_ok()` is `Option.isSome`
here.  The argument iterator is a list; the first `args.next()` discards
the program name, the next two yield the query and the filename or the
corresponding static error string. -/
def Config.new (ignoreCaseVar : Option Str) (args : List Str) :
    Except String Config :=
  match args.drop 1 with
  | [] => Except.error "Didn\x27t get a query string"
  | query :: rest =>
    match rest with
    | [] => Except.error "Didn\x27t get a file name"
    | filename :: _ =>
      Except.ok { query := query, filename := filename,
                  ignore_case := ignoreCaseVar.isSome }

end Minigrep

namespace PanicOrNot

/-- Embedding of the `Guess` struct (src/panic_or_not/src/main.rs): a record
holding one i32 value (modelled as an integer; `Guess::new` performs only
comparisons, no arithmetic, so no wrap-around is involved). -/
structure Guess where
  value : Int
  deriving DecidableEq

/-- Embedding of `Guess::new` (src/panic_or_not/src/main.rs).  The `panic!`
on an out-of-range argument is modelled as `none`; otherwise the guess
holding the argument is returned.  It is the only way to build a `Guess`
in the source, and the only method is the getter returning the stored
value, so the `Option` result captures the whole lifecycle of the type. -/
def Guess.new (value : Int) : Option Guess :=
  if value < 1 ∨ value > 100 then none
  else some { value := value }

end PanicOrNot

namespace GuessingGame

/-- Embedding of Rust `str::trim`, modelled on the common whitespace
characters (space, tab, carriage return, newline): drop whitespace from
both ends. -/
def trim (s : Str) : Str :=
  ((s.dropWhile Char.isWhitespace).reverse.dropWhile Char.isWhitespace).reverse

/-- Embedding of `u32::from_str` as invoked by `guess.trim().parse()`:
an optional sign, then a non-empty run of decimal digits; the checked
accumulation fails exactly when the value leaves the u32 range (for a
leading minus sign the checked subtraction from zero succeeds only for
value zero). -/
def parseU32 (s : Str) : Option Nat :=
  let signDigits : Bool × Str :=
    match s with
    | '+' :: rest => (true, rest)
    | '-' :: rest => (false, rest)
    | _ => (true, s)
  let isPositive := signDigits.1
  let digits := signDigits.2
  if digits = [] then none
  else if digits.all Char.isDigit then
    let v := digits.foldl (fun acc c => acc * 10 + (c.toNat - 48)) 0
    if isPositive then
      if v ≤ 4294967295 then some v else none
    else
      if v = 0 then some 0 else none
  else none

/-- Result of running the guessing-game loop on a finite list of input
lines: either some guess equals the secret (`win`, the `break`), or the
input list is exhausted (`noMoreInput`). -/
inductive Outcome where
  | win
  | noMoreInput
  deriving DecidableEq

/-- Embedding of the guessing game's main loop
(src/guessing_game/src/main.rs): each iteration reads one line; when
`trim().parse()` fails the `Err(_) => continue` arm goes back to the top
of the loop and the next line is read; when it succeeds the guess is
compared with the secret, and only equality breaks the loop. -/
def run (secret : Nat) : List Str → Outcome
  | [] => Outcome.noMoreInput
  | line :: rest =>
    match parseU32 (trim line) with
    | none => run secret rest
    | some guess =>
      match compare guess secret with
      | Ordering.eq => Outcome.win
      | _ => run secret rest

end GuessingGame

namespace MutexArc

/-- Embedding of the body of each spawned thread in the mutex counter
snippet (src/mutex_arc/src/main.rs): under the lock, `*num += 1`.  The
mutex guard is held for the whole closure body, so the read-increment-write
is a single atomic step of the counter. -/
def threadBody (num : Int) : Int := num + 1

/-- The ten spawned threads of the snippet (`for _ in 0..10`). -/
def threads : List (Int → Int) := List.replicate 10 threadBody

/-- Running the critical sections of a schedule in order over the
mutex-guarded counter.  An execution of the snippet is any serialization
of the ten critical sections, i.e. any permutation of `threads`. -/
def execute (sched : List (Int → Int)) (counter : Int) : Int :=
  match sched with
  | [] => counter
  | f :: fs => execute fs (f counter)

end MutexArc

/-- Value of `Char.ofNat` on a code point below the surrogate range. -/
theorem toNat_ofNat_valid {n : Nat} (h : n < 55296) : (Char.ofNat n).toNat = n := by
  have hv : n.isValidChar := Or.inl h
  rw [Char.ofNat, dif_pos hv]
  simp [Char.ofNatAux, Char.toNat, UInt32.toNat, BitVec.toNat_ofNatLt]

/-- Per-character lowercasing is idempotent. -/
theorem charToLower_idem (c : Char) :
    Minigrep.charToLower (Minigrep.charToLower c) = Minigrep.charToLower c := by
  unfold Minigrep.charToLower Char.toLower
  by_cases h : c.toNat ≥ 65 ∧ c.toNat ≤ 90
  · rw [if_pos h]
    have h32 : (Char.ofNat (c.toNat + 32)).toNat = c.toNat + 32 :=
      toNat_ofNat_valid (by omega)
    rw [if_neg (by rw [h32]; omega)]
  · rw [if_neg h, if_neg h]

/-- The unconditional per-character lowercasing never produces a capital
sigma. -/
theorem charToLower_ne_sigma {c : Char} (hc : c ≠ 'Σ') :
    Minigrep.charToLower c ≠ 'Σ' := by
  unfold Minigrep.charToLower Char.toLower
  by_cases h : c.toNat ≥ 65 ∧ c.toNat ≤ 90
  · rw [if_pos h]
    intro hEq
    have hval := congrArg Char.toNat hEq
    rw [toNat_ofNat_valid (by omega)] at hval
    have hsig : ('Σ').toNat = 931 := by decide
    rw [hsig] at hval
    omega
  · rw [if_neg h]
    exact hc

/-- Mapping `charToLower` over a list of characters it fixes is the
identity. -/
theorem map_charToLower_fixed {l : Str}
    (h : ∀ c ∈ l, Minigrep.charToLower c = c) :
    l.map Minigrep.charToLower = l := by
  induction l with
  | nil => rfl
  | cons c cs ih =>
    rw [List.map_cons, h c (List.mem_cons_self c cs),
      ih (fun d hd => h d (List.mem_cons_of_mem c hd))]

/-- Every character emitted by the lowercasing worker is fixed by
`charToLower` and is not a capital sigma. -/
theorem toLowercaseAux_chars (s : Str) : ∀ (before : Str) (c : Char),
    c ∈ Minigrep.toLowercaseAux before s →
    Minigrep.charToLower c = c ∧ c ≠ 'Σ' := by
  induction s with
  | nil =>
    intro before c h
    simp [Minigrep.toLowercaseAux] at h
  | cons x xs ih =>
    intro before c h
    rw [Minigrep.toLowercaseAux, List.mem_append] at h
    rcases h with hc | hc
    · by_cases hx : x = 'Σ'
      · rw [if_pos hx] at hc
        split at hc <;>
          (simp only [List.mem_singleton] at hc; subst hc;
            exact ⟨by decide, by decide⟩)
      · rw [if_neg hx] at hc
        simp only [List.mem_singleton] at hc
        subst hc
        exact ⟨charToLower_idem x, charToLower_ne_sigma hx⟩
    · exact ih (x :: before) c hc

/-- On a sigma-free string the lowercasing worker is the plain
character-wise map, independently of the context. -/
theorem toLowercaseAux_no_sigma :
    ∀ (xs : Str), 'Σ' ∉ xs → ∀ before,
      Minigrep.toLowercaseAux before xs = xs.map Minigrep.charToLower := by
  intro xs
  induction xs with
  | nil => intro _ before; rfl
  | cons x xs ih =>
    intro hmem before
    have hx : x ≠ 'Σ' := by rintro rfl; exact hmem (List.mem_cons_self _ _)
    have hxs : 'Σ' ∉ xs := fun h => hmem (List.mem_cons_of_mem x h)
    rw [Minigrep.toLowercaseAux, if_neg hx, ih hxs (x :: before),
      List.map_cons, List.singleton_append]

/-- Lowercasing a sigma-free block at the head: the worker splits as the
char-wise image of the block followed by the worker on the rest. -/
theorem toLowercaseAux_append_no_sigma :
    ∀ (q : Str), 'Σ' ∉ q → ∀ (before t : Str),
      Minigrep.toLowercaseAux before (q ++ t) =
        q.map Minigrep.charToLower ++
          Minigrep.toLowercaseAux (q.reverse ++ before) t := by
  intro q
  induction q with
  | nil => intro _ before t; simp
  | cons x xs ih =>
    intro hmem before t
    have hx : x ≠ 'Σ' := by rintro rfl; exact hmem (List.mem_cons_self _ _)
    have hxs : 'Σ' ∉ xs := fun h => hmem (List.mem_cons_of_mem x h)
    rw [List.cons_append, Minigrep.toLowercaseAux, if_neg hx,
      ih hxs (x :: before) t]
    simp [List.append_assoc]

/-- Anywhere a sigma-free block occurs contiguously, its char-wise image
occurs contiguously in the output of the lowercasing worker. -/
theorem toLowercase_decompose {q : Str} (hq : 'Σ' ∉ q) :
    ∀ (s before t : Str), ∃ A B,
      Minigrep.toLowercaseAux before (s ++ q ++ t) =
        A ++ q.map Minigrep.charToLower ++ B := by
  intro s
  induction s with
  | nil =>
    intro before t
    refine ⟨[], Minigrep.toLowercaseAux (q.reverse ++ before) t, ?_⟩
    simpa using toLowercaseAux_append_no_sigma q hq before t
  | cons x s' ih =>
    intro before t
    obtain ⟨A, B, hAB⟩ := ih (x :: before) t
    obtain ⟨chunk, hchunk⟩ :
        ∃ chunk, Minigrep.toLowercaseAux before (x :: (s' ++ q ++ t)) =
          chunk ++ Minigrep.toLowercaseAux (x :: before) (s' ++ q ++ t) :=
      ⟨_, rfl⟩
    refine ⟨chunk ++ A, B, ?_⟩
    simp only [List.cons_append] at hchunk ⊢
    rw [hchunk, hAB]
    simp [List.append_assoc]

/-- Lowercasing a whole string is idempotent. -/
theorem toLowercase_idem (s : Str) :
    Minigrep.toLowercase (Minigrep.toLowercase s) = Minigrep.toLowercase s := by
  have hchars : ∀ c ∈ Minigrep.toLowercase s,
      Minigrep.charToLower c = c ∧ c ≠ 'Σ' :=
    fun c hc => toLowercaseAux_chars s [] c hc
  have hns : 'Σ' ∉ Minigrep.toLowercase s :=
    fun hmem => (hchars 'Σ' hmem).2 rfl
  show Minigrep.toLowercaseAux [] (Minigrep.toLowercase s) =
    Minigrep.toLowercase s
  rw [toLowercaseAux_no_sigma (Minigrep.toLowercase s) hns []]
  exact map_charToLower_fixed (fun c hc => (hchars c hc).1)

/-- The empty string occurs in every string. -/
theorem isSub_nil (l : Str) : [] <:+: l := ⟨[], l, rfl⟩

/-- C1: for every query and contents, the case-sensitive `search` returns
exactly the lines of the contents that contain the query as a substring
(a line is in the result iff it contains the query), and the result is a
sublist of the lines, hence in their original order. -/
theorem search_exactly_matching_lines (query contents : Str) :
    (∀ line, line ∈ Minigrep.search query contents ↔
      line ∈ Minigrep.lines contents ∧ query <:+: line) ∧
    (Minigrep.search query contents).Sublist (Minigrep.lines contents) := by
  constructor
  · intro line
    simp [Minigrep.search, Minigrep.strContains, List.mem_filter]
  · exact List.filter_sublist _

/-- C2: `search_case_insensitive` returns exactly the lines whose
lowercased form contains the lowercased query, and replacing the query by
its lowercased form does not change the returned list of lines. -/
theorem search_ci_case_irrelevant (query contents : Str) :
    (∀ line, line ∈ Minigrep.search_case_insensitive query contents ↔
      line ∈ Minigrep.lines contents ∧
        Minigrep.toLowercase query <:+: Minigrep.toLowercase line) ∧
    Minigrep.search_case_insensitive (Minigrep.toLowercase query) contents =
      Minigrep.search_case_insensitive query contents := by
  constructor
  · intro line
    simp [Minigrep.search_case_insensitive, Minigrep.strContains, List.mem_filter]
  · simp only [Minigrep.search_case_insensitive, toLowercase_idem]

/-- C8 counterexample: with query "Σ" and contents "aΣ" the line "aΣ" is
returned by the case-sensitive `search` but not by
`search_case_insensitive`: the query lowercases to "σ" while the line
lowercases to "aς" by the Final_Sigma rule, and "aς" does not contain
"σ".  So case-sensitive matches are not a subset of the case-insensitive
ones. -/
theorem search_not_subset_search_ci :
    "aΣ".toList ∈ Minigrep.search "Σ".toList "aΣ".toList ∧
    "aΣ".toList ∉ Minigrep.search_case_insensitive "Σ".toList "aΣ".toList := by
  decide

/-- C8 amended: for every query free of the capital sigma — the one
character whose lowercasing is context-sensitive — every line returned
by the case-sensitive `search` is also returned by
`search_case_insensitive`. -/
theorem search_subset_search_ci_no_final_sigma (query contents line : Str)
    (hq : 'Σ' ∉ query) (h : line ∈ Minigrep.search query contents) :
    line ∈ Minigrep.search_case_insensitive query contents := by
  have h' : line ∈ Minigrep.lines contents ∧ query <:+: line := by
    simpa [Minigrep.search, Minigrep.strContains, List.mem_filter] using h
  obtain ⟨s, t, hst⟩ := h'.2
  obtain ⟨A, B, hAB⟩ := toLowercase_decompose hq s [] t
  have hline : Minigrep.toLowercase line =
      A ++ query.map Minigrep.charToLower ++ B := by
    rw [← hst]
    exact hAB
  have hq' : Minigrep.toLowercase query = query.map Minigrep.charToLower :=
    toLowercaseAux_no_sigma query hq []
  have hinf : Minigrep.toLowercase query <:+: Minigrep.toLowercase line := by
    rw [hq']
    exact ⟨A, B, hline.symm⟩
  simp only [Minigrep.search_case_insensitive, List.mem_filter,
    Minigrep.strContains, decide_eq_true_eq]
  exact ⟨h'.1, hinf⟩

/-- Witness for the amended C8 at a concrete sigma-free input. -/
theorem search_subset_search_ci_no_sigma_witness :
    'Σ' ∉ "a".toList ∧
    "ab".toList ∈ Minigrep.search_case_insensitive "a".toList "ab\ncd".toList :=
  ⟨by decide, search_subset_search_ci_no_final_sigma "a".toList "ab\ncd".toList
    "ab".toList (by decide) (by decide)⟩

/-- C9: the empty query matches every line: both search functions return
the full list of lines of the contents, in order. -/
theorem empty_query_matches_every_line (contents : Str) :
    Minigrep.search [] contents = Minigrep.lines contents ∧
    Minigrep.search_case_insensitive [] contents = Minigrep.lines contents := by
  constructor
  · exact List.filter_eq_self.mpr fun line _ => by
      simp [Minigrep.strContains, isSub_nil]
  · exact List.filter_eq_self.mpr fun line _ => by
      simp [Minigrep.strContains, Minigrep.toLowercase, Minigrep.toLowercaseAux,
        isSub_nil]

/-- C3: `Guess::new` rejects exactly the out-of-range values: it panics
(returns `none`) iff the argument is below 1 or above 100, and otherwise
it returns the guess holding the argument. -/
theorem guess_new_range_guard (v : Int) :
    (PanicOrNot.Guess.new v = none ↔ v < 1 ∨ v > 100) ∧
    (PanicOrNot.Guess.new v = none ∨ PanicOrNot.Guess.new v = some ⟨v⟩) := by
  unfold PanicOrNot.Guess.new
  by_cases h : v < 1 ∨ v > 100 <;> simp [h]

/-- C10: every guess built by `Guess::new` satisfies the range invariant
1 ≤ value ≤ 100, and its stored value — what the getter returns — is
exactly the argument of the constructor. -/
theorem guess_invariant (v : Int) (g : PanicOrNot.Guess)
    (h : PanicOrNot.Guess.new v = some g) :
    (1 ≤ g.value ∧ g.value ≤ 100) ∧ g.value = v := by
  unfold PanicOrNot.Guess.new at h
  by_cases hv : v < 1 ∨ v > 100
  · simp [hv] at h
  · rw [if_neg hv, Option.some.injEq] at h
    subst h
    push_neg at hv
    exact ⟨⟨hv.1, hv.2⟩, rfl⟩

/-- Witness for C10 at the concrete argument 3. -/
theorem guess_invariant_witness :
    (1 ≤ (PanicOrNot.Guess.mk 3).value ∧ (PanicOrNot.Guess.mk 3).value ≤ 100) ∧
    (PanicOrNot.Guess.mk 3).value = 3 :=
  guess_invariant 3 (PanicOrNot.Guess.mk 3) (by decide)

/-- C4: `Config::new` fails with the static query-string error iff at most
one argument (the program name) is present, fails with the static
file-name error iff exactly two are present, succeeds iff at least three
are present, and on success the query and filename are the second and
third arguments. -/
theorem config_new_two_case (v : Option Str) (args : List Str) :
    (Minigrep.Config.new v args = Except.error "Didn\x27t get a query string" ↔
      args.length ≤ 1) ∧
    (Minigrep.Config.new v args = Except.error "Didn\x27t get a file name" ↔
      args.length = 2) ∧
    ((∃ c, Minigrep.Config.new v args = Except.ok c) ↔ 3 ≤ args.length) ∧
    (∀ a0 q f rest, Minigrep.Config.new v (a0 :: q :: f :: rest) =
      Except.ok ⟨q, f, v.isSome⟩) := by
  refine ⟨?_, ?_, ?_, fun a0 q f rest => rfl⟩ <;>
    rcases args with _ | ⟨a, _ | ⟨b, _ | ⟨c, rest⟩⟩⟩ <;>
      simp [Minigrep.Config.new]

/-- C5 counterexample: `Config` is a three-field record, not a four-field
one — packing a (query, filename, ignore_case) triple into a `Config` is
a bijection, so the type carries exactly those three fields. -/
theorem config_not_four_fields :
    Function.Bijective
      (fun t : Str × Str × Bool => Minigrep.Config.mk t.1 t.2.1 t.2.2) := by
  constructor
  · rintro ⟨a1, a2, a3⟩ ⟨b1, b2, b3⟩ hab
    simpa [Prod.ext_iff] using (Minigrep.Config.mk.injEq ..).mp hab
  · rintro ⟨q, f, b⟩
    exact ⟨⟨q, f, b⟩, rfl⟩

/-- C5 amended: the configuration is a three-field record — search term,
file path and case-insensitivity flag — populated from the command-line
arguments (second and third items) and the one environment variable: the
flag is true exactly when IGNORE_CASE is set to any value. -/
theorem config_three_field_record :
    Function.Bijective
      (fun t : Str × Str × Bool => Minigrep.Config.mk t.1 t.2.1 t.2.2) ∧
    (∀ (v : Option Str) (a0 q f : Str) (rest : List Str),
      Minigrep.Config.new v (a0 :: q :: f :: rest) =
        Except.ok ⟨q, f, v.isSome⟩) ∧
    (∀ v : Option Str, Option.isSome v = true ↔ ∃ s, v = some s) := by
  refine ⟨⟨?_, ?_⟩, fun v a0 q f rest => rfl, fun v => ?_⟩
  · rintro ⟨a1, a2, a3⟩ ⟨b1, b2, b3⟩ hab
    simpa [Prod.ext_iff] using (Minigrep.Config.mk.injEq ..).mp hab
  · rintro ⟨q, f, b⟩
    exact ⟨⟨q, f, b⟩, rfl⟩
  · cases v <;> simp

/-- C6 counterexample: the guessing game does retry on invalid input — on
the inputs "abc" then "50" with secret 50, the non-parsing first line is
skipped by `Err(_) => continue` and the game loops back, reads the second
line and wins, so a line that does not parse as an integer does lead to
prompting for and reading another guess. -/
theorem guessing_game_retries_on_invalid :
    GuessingGame.run 50 ["abc".toList, "50".toList] = GuessingGame.Outcome.win := by
  decide

/-- C6 amended: upon reading a line that does not parse as an integer, the
guessing game skips it and loops back to prompt for and read another
guess: the run on the remaining input is unchanged. -/
theorem guessing_game_skips_invalid (secret : Nat) (line : Str) (rest : List Str)
    (h : GuessingGame.parseU32 (GuessingGame.trim line) = none) :
    GuessingGame.run secret (line :: rest) = GuessingGame.run secret rest := by
  simp [GuessingGame.run, h]

/-- Witness for the amended C6 at a concrete input. -/
theorem guessing_game_skips_invalid_witness :
    GuessingGame.parseU32 (GuessingGame.trim "abc".toList) = none ∧
    GuessingGame.run 50 ["abc".toList, "7".toList] =
      GuessingGame.run 50 ["7".toList] :=
  ⟨by decide, guessing_game_skips_invalid 50 "abc".toList ["7".toList] (by decide)⟩

/-- Executing a schedule all of whose critical sections are the increment
adds the length of the schedule to the counter. -/
theorem execute_adds_length (l : List (Int → Int))
    (hl : ∀ f ∈ l, f = MutexArc.threadBody) :
    ∀ c : Int, MutexArc.execute l c = c + l.length := by
  induction l with
  | nil => intro c; simp [MutexArc.execute]
  | cons f fs ih =>
    intro c
    have hf : f = MutexArc.threadBody := hl f (by simp)
    have ihc := ih (fun g hg => hl g (List.mem_cons_of_mem f hg)) (c + 1)
    simp only [MutexArc.execute, hf, MutexArc.threadBody] at ihc ⊢
    rw [ihc]
    simp only [List.length_cons]
    push_cast
    ring

/-- C7: in the mutex counter snippet, whatever order the mutex serializes
the ten critical sections in — any permutation of the ten spawned
increments — the counter that started at 0 ends at 10 after all joins, so
the printed value is 10 on every execution. -/
theorem mutex_counter_result_ten (sched : List (Int → Int))
    (h : sched.Perm MutexArc.threads) :
    MutexArc.execute sched 0 = 10 := by
  have hmem : ∀ f ∈ sched, f = MutexArc.threadBody := by
    intro f hf
    have hft : f ∈ MutexArc.threads := h.subset hf
    rw [MutexArc.threads, List.mem_replicate] at hft
    exact hft.2
  have hlen : sched.length = 10 := by
    simpa [MutexArc.threads] using h.length_eq
  rw [execute_adds_length sched hmem 0, hlen]
  rfl

/-- Witness for C7: the program-order schedule itself. -/
theorem mutex_counter_result_ten_witness :
    MutexArc.execute MutexArc.threads 0 = 10 :=
  mutex_counter_result_ten MutexArc.threads (List.Perm.refl MutexArc.threads)

/-- Witness for the amended C5 at a concrete argument list with the
variable unset. -/
theorem config_three_field_record_witness :
    Minigrep.Config.new none ["minigrep".toList, "q".toList, "f".toList] =
      Except.ok ⟨"q".toList, "f".toList, false⟩ :=
  config_three_field_record.2.1 none "minigrep".toList "q".toList "f".toList []
